import Mathlib

/-!
# hakrevdns: resolver pool and lookup worker

A shallow embedding of `main.go` (package `main`): the resolver pool built by
`loadResolversFromFile`, the per-dial choice made by `getRandomResolver`, the
output written by `doWork`, and the fan-out of input lines over the workers
started by `main`.

Conventions of the embedding.

* A Go `string` is an immutable sequence of bytes; it is modelled as a list of
  byte values (`GoString`).  `ascii` turns a Lean string literal of ASCII
  characters into such a list.
* The network is not modelled: `testResolver` and `net.Resolver.LookupAddr` are
  parameters (functions giving the outcome of the call for each argument).
* A Go `panic` is modelled by the `Except.error` result.
* Standard input is the sequence of bytes it delivers before its end or a read
  error; `bufio.Scanner` treats the two alike and `main` never reads `s.Err()`.
* The package-level variables `opts` and `resolverIPs` are passed explicitly.
-/

namespace Hakrevdns

/-! ## Strings and the two library functions used on them -/

/-- A Go string, as its sequence of bytes. -/
abbrev GoString := List Nat

/-- The bytes of a string literal made of ASCII characters. -/
def ascii (s : String) : GoString := s.data.map Char.toNat

/-- The byte of the character `.`. -/
def DOT : Nat := 46

/-- The byte of the tab character, the Go literal "\t". -/
def TAB : Nat := 9

/-- The byte of the space character. -/
def SP : Nat := 32

/-- The byte of the line terminator written by `Println`. -/
def NL : Nat := 10

/-- The constant `utf8.RuneSelf`: bytes below it are single-byte runes. -/
def RuneSelf : Nat := 128

/-- The loop of `strings.trimRightByte`:
`for len(s) > 0 && s[len(s)-1] == c { s = s[:len(s)-1] }`.
The first argument bounds the number of iterations. -/
def trimRightByteLoop : Nat → GoString → Nat → GoString
  | 0, s, _ => s
  | fuel + 1, s, c =>
    if 0 < s.length ∧ s.getLast? = some c then trimRightByteLoop fuel s.dropLast c else s

/-- Go `strings.trimRightByte(s, c)`; the loop shortens `s` by one byte per
iteration, so `len(s)` iterations are enough. -/
def trimRightByte (s : GoString) (c : Nat) : GoString :=
  trimRightByteLoop s.length s c

/-- The loop of `strings.trimRightASCII`: drop the last byte while it is in
the cutset. -/
def trimRightASCIILoop : Nat → GoString → GoString → GoString
  | 0, s, _ => s
  | fuel + 1, s, cutset =>
    match s.getLast? with
    | some b => if b ∈ cutset then trimRightASCIILoop fuel s.dropLast cutset else s
    | none => s

/-- Go `strings.TrimRight(s, cutset)`.  A one-byte ASCII cutset goes to
`trimRightByte`, as in Go; the remaining branch is Go's `trimRightASCII`, which
Go takes for cutsets of ASCII bytes.  Cutsets with a non-ASCII byte (Go's
`trimRightUnicode`) are outside the model: the program's only call passes the
cutset ".". -/
def TrimRight (s cutset : GoString) : GoString :=
  if s.length = 0 ∨ cutset.length = 0 then s
  else if cutset.length = 1 ∧ cutset.headD 0 < RuneSelf then trimRightByte s (cutset.headD 0)
  else trimRightASCIILoop s.length s cutset

/-- The buffer built by `fmt`'s `doPrintln` over string operands:
`for argNum, arg := range a { if argNum > 0 { buf.writeByte(' ') }; printArg(arg, 'v') }`.
A string operand is printed as its bytes. -/
def doPrintlnArgs : Nat → List GoString → GoString → GoString
  | _, [], buf => buf
  | argNum, arg :: rest, buf =>
    doPrintlnArgs (argNum + 1) rest ((if 0 < argNum then buf ++ [SP] else buf) ++ arg)

/-- Go `fmt.Println(a...)` on string operands, as the bytes written to standard
output: the operands with a space between each two, then a newline. -/
def Println (a : List GoString) : GoString :=
  doPrintlnArgs 0 a [] ++ [NL]

/-! ## Configuration -/

/-- The package-level `opts` struct filled in by the flag parser. -/
structure Opts where
  /-- Number of workers, flag `-t`. -/
  Threads : Int
  /-- Single resolver address, flag `-r`. -/
  ResolverIP : GoString
  /-- Path of the resolver candidate file, flag `-f`. -/
  ResolverFile : GoString
  /-- Transport, flag `-P`. -/
  Protocol : GoString
  /-- Resolver port, flag `-p`. -/
  Port : Nat
  /-- Domain-only output, flag `-d`. -/
  Domain : Bool

/-! ## The worker -/

/-- The write made by the body of `for _, a := range addr` in `doWork` (lines
135-141) for the input line `ip` and the resolved name `a`. -/
def doWorkEmit (opts : Opts) (ip a : GoString) : GoString :=
  if opts.Domain then
    Println [TrimRight a (ascii ".")]
  else
    Println [ip, ascii "\t", a]

/-- Go `doWork`, as the list of writes to standard output (one per `Println`
call, in order) made by a worker that receives the items `work` from the
channel, in that order, before the channel is closed.  `LookupAddr ip` is the
outcome of `r.LookupAddr(context.Background(), ip)`: an error, or the names. -/
def doWork (opts : Opts) (LookupAddr : GoString → Except GoString (List GoString)) :
    List GoString → List GoString
  | [] => []
  | ip :: work =>
    match LookupAddr ip with
    | .error _ => doWork opts LookupAddr work
    | .ok addr => addr.map (doWorkEmit opts ip) ++ doWork opts LookupAddr work

/-! ## The resolver pool -/

/-- The value a Go `panic` is raised with. -/
inductive Panic where
  /-- The call `panic(err)` with the error of `os.Open`. -/
  | openError (err : GoString)
  /-- The call `panic` with a string. -/
  | message (text : GoString)
  deriving DecidableEq, Repr

/-- The state `loadResolversFromFile` works on: the package-level variable
`resolverIPs`, and the arguments of the calls made to `testResolver` so far,
oldest first. -/
structure PoolState where
  /-- The package-level `resolverIPs`. -/
  resolverIPs : List GoString
  /-- The calls made to `testResolver`, in order. -/
  probed : List GoString
  deriving DecidableEq, Repr

/-- The loop of lines 96-102:
`for _, resolver := range tempResolvers { if testResolver(resolver) { resolverIPs = append(resolverIPs, resolver) } else { } }`. -/
def probeLoop (testResolver : GoString → Bool) : List GoString → PoolState → PoolState
  | [], st => st
  | resolver :: rest, st =>
    if testResolver resolver then
      probeLoop testResolver rest
        { resolverIPs := st.resolverIPs ++ [resolver], probed := st.probed ++ [resolver] }
    else
      probeLoop testResolver rest { st with probed := st.probed ++ [resolver] }

/-- Go `loadResolversFromFile`.  `file` is what opening and scanning the file
gives: the error of `os.Open`, or the lines the scanner yields (they become
`tempResolvers`).  `testResolver` is the outcome of the health probe for each
address, `resolverIPs` the value of the package-level variable on entry.  The
result is the panic the function ends in, or the state it returns with. -/
def loadResolversFromFile (file : Except GoString (List GoString))
    (testResolver : GoString → Bool) (resolverIPs : List GoString) : Except Panic PoolState :=
  match file with
  | .error err => .error (.openError err)
  | .ok tempResolvers =>
    let st := probeLoop testResolver tempResolvers { resolverIPs := resolverIPs, probed := [] }
    if st.resolverIPs.length = 0 then
      .error (.message (ascii "No working resolvers found."))
    else
      .ok st

/-- Go `getRandomResolver`.  `Intn rnd n` is the outcome of `rand.Intn(n)` when
the package-level random source is in state `rnd`: the number drawn and the
next state of the source.  The result is the returned address, or `none` for the
run-time panic of an index out of range, and the state of the source after the
call. -/
def getRandomResolver {σ : Type} (Intn : σ → Nat → Nat × σ) (opts : Opts)
    (resolverIPs : List GoString) (rnd : σ) : Option GoString × σ :=
  if resolverIPs.length = 0 then
    (some opts.ResolverIP, rnd)
  else
    let drawn := Intn rnd resolverIPs.length
    (resolverIPs[drawn.1]?, drawn.2)

/-- The results of `n` successive calls of `getRandomResolver`, oldest first, the
random source passing from each call to the next (the dial function of the
resolver in `doWork` calls it once per dial). -/
def getRandomResolverCalls {σ : Type} (Intn : σ → Nat → Nat × σ) (opts : Opts)
    (resolverIPs : List GoString) : Nat → σ → List (Option GoString)
  | 0, _ => []
  | n + 1, rnd =>
    (getRandomResolver Intn opts resolverIPs rnd).1 ::
      getRandomResolverCalls Intn opts resolverIPs n (getRandomResolver Intn opts resolverIPs rnd).2

/-! ## The input scanner of `main`

`bufio.NewScanner(os.Stdin)` with its defaults: the split function
`bufio.ScanLines` and a buffer that grows to `bufio.MaxScanTokenSize` bytes. -/

/-- The byte of the carriage return. -/
def CR : Nat := 13

/-- The constant `bufio.MaxScanTokenSize`, the largest size of the scanner's buffer. -/
def MaxScanTokenSize : Nat := 64 * 1024

/-- The search of `bytes.IndexByte` from the index `i` on: the index of the first
byte equal to `c`. -/
def IndexByteFrom : Nat → GoString → Nat → Option Nat
  | _, [], _ => none
  | i, b :: rest, c => if b = c then some i else IndexByteFrom (i + 1) rest c

/-- Go `bytes.IndexByte(data, c)`: the index of the first `c` in `data`, `none`
for the result -1. -/
def IndexByte (data : GoString) (c : Nat) : Option Nat :=
  IndexByteFrom 0 data c

/-- Go `bufio`'s `dropCR`: `data` without one trailing carriage return. -/
def dropCR (data : GoString) : GoString :=
  if 0 < data.length ∧ data.getLast? = some CR then data.dropLast else data

/-- Go `bufio.ScanLines(data, atEOF)`, as the pair `(advance, token)`, the token
being `none` for Go's `nil` (more data is asked for):
`if atEOF && len(data) == 0 { return 0, nil, nil }`,
`if i := bytes.IndexByte(data, '\n'); i >= 0 { return i + 1, dropCR(data[0:i]), nil }`,
`if atEOF { return len(data), dropCR(data), nil }`, `return 0, nil, nil`. -/
def ScanLines (data : GoString) (atEOF : Bool) : Nat × Option GoString :=
  if atEOF = true ∧ data.length = 0 then (0, none)
  else
    match IndexByte data NL with
    | some i => (i + 1, some (dropCR (data.take i)))
    | none => if atEOF = true then (data.length, some (dropCR data)) else (0, none)

/-- One call of `s.Scan()` followed by `s.Text()`.  `data` is what remains of
the bytes that standard input delivers before its end or a read error; the
scanner treats the two alike (it splits what it has with `atEOF` set, then stops)
and `main` never reads `s.Err()`.  The split function sees at most a full buffer
of `MaxScanTokenSize` bytes, and sees the end of the data only when the buffer is
not full; when it asks for more data with the buffer full, `Scan` fails with
`ErrTooLong`.  The result is the token and the bytes that remain, or `none` when
`Scan` returns false. -/
def Scan (data : GoString) : Option (GoString × GoString) :=
  match ScanLines (data.take MaxScanTokenSize) (decide (data.length < MaxScanTokenSize)) with
  | (advance, some token) => some (token, data.drop advance)
  | (_, none) => none

/-- The tokens of at most `fuel` successive successful calls of `s.Scan()`. -/
def scanAll : Nat → GoString → List GoString
  | 0, _ => []
  | fuel + 1, data =>
    match Scan data with
    | some (token, rest) => token :: scanAll fuel rest
    | none => []

/-- The lines the loop `for s.Scan() { ... s.Text() ... }` goes through on the
input `data`; every successful call consumes a byte, so `len(data)` calls are
enough. -/
def scanTokens (data : GoString) : List GoString :=
  scanAll data.length data

/-- The input made of the given lines, each followed by a newline. -/
def joinLines (lines : List GoString) : GoString :=
  lines.flatMap (fun l => l ++ [NL])

/-! ## The fan-out of `main`: one reader, the workers, one unbuffered channel -/

/-- One `doWork` goroutine, seen from the channel. -/
structure Worker where
  /-- The item received by `for ip := range work` whose loop body is running. -/
  current : Option GoString
  /-- The items whose loop body (the lookup and its output) has completed. -/
  processed : List GoString
  /-- The function has returned (`wg.Done()` has run). -/
  done : Bool
  deriving DecidableEq, Repr

/-- The goroutines of `main` (lines 41-56). -/
structure Sys where
  /-- The bytes of standard input the scanner of the reader goroutine has not
  yet consumed. -/
  pending : GoString
  /-- The reader has left its loop and run `close(work)`. -/
  closed : Bool
  /-- The goroutines started by `go doWork(work, wg)`. -/
  workers : List Worker
  deriving DecidableEq, Repr

/-- What can happen next. -/
inductive Event where
  /-- In the reader `s.Scan()` returns true and the send `work <- s.Text()` meets
  the receive of worker `i`: the channel is unbuffered, so a send completes with
  exactly one receive. -/
  | handoff (i : Nat)
  /-- Worker `i` completes the body of its loop for the item it holds. -/
  | lookup (i : Nat)
  /-- In the reader `s.Scan()` returns false (end of input, read error or a line
  too long for the buffer), the loop ends and the reader runs `close(work)`. -/
  | close
  /-- Worker `i` finds the channel closed and empty, leaves `range work` and returns. -/
  | exit (i : Nat)
  deriving DecidableEq, Repr

/-- A worker that has just been started. -/
def Worker.start : Worker := { current := none, processed := [], done := false }

/-- The state after `main` has started the reader and the workers, `data` being
the bytes standard input delivers:
`for i := 0; i < numWorkers; i++ { wg.Add(1); go doWork(work, wg) }` with
`numWorkers := opts.Threads` starts no worker when the count is not positive. -/
def Sys.init (opts : Opts) (data : GoString) : Sys :=
  { pending := data, closed := false, workers := List.replicate opts.Threads.toNat Worker.start }

/-- One event, when it is enabled in the state. -/
def Sys.step (s : Sys) : Event → Option Sys
  | .handoff i =>
    match Scan s.pending, s.workers[i]? with
    | some (ip, rest), some w =>
      if s.closed = false ∧ w.done = false ∧ w.current = none then
        some { s with pending := rest, workers := s.workers.set i { w with current := some ip } }
      else none
    | _, _ => none
  | .lookup i =>
    match s.workers[i]? with
    | some w =>
      match w.current with
      | some ip =>
        some { s with workers := s.workers.set i { w with current := none, processed := w.processed ++ [ip] } }
      | none => none
    | none => none
  | .close =>
    match Scan s.pending with
    | none => if s.closed = false then some { s with closed := true } else none
    | some _ => none
  | .exit i =>
    match s.workers[i]? with
    | some w =>
      if s.closed = true ∧ w.done = false ∧ w.current = none then
        some { s with workers := s.workers.set i { w with done := true } }
      else none
    | none => none

/-- A sequence of events from a state; `none` when one of them is not enabled. -/
def Sys.run (s : Sys) : List Event → Option Sys
  | [] => some s
  | e :: es =>
    match s.step e with
    | some t => t.run es
    | none => none

/-- The condition `wg.Wait()` waits for: every started worker has returned. -/
def Sys.allDone (s : Sys) : Bool := s.workers.all (fun w => w.done)

/-- The items held by workers whose loop body has not completed. -/
def Sys.inFlight (s : Sys) : List GoString :=
  s.workers.flatMap (fun w => w.current.toList)

/-- The items processed so far, by all workers together. -/
def Sys.processed (s : Sys) : List GoString :=
  s.workers.flatMap (fun w => w.processed)

/-- The number of times the item `x` occurs in a list of items. -/
def occurrences (x : GoString) (l : List GoString) : Nat :=
  l.countP (fun y => decide (y = x))

/-- The work left in a worker: to return, and to complete the item it holds. -/
def Worker.todo (w : Worker) : Nat :=
  (if w.done then 0 else 1) + (if w.current.isSome then 1 else 0)

/-- A bound on the number of events left before every goroutine is finished:
each pending byte stands for at most one line, which takes a hand-off and a
lookup; the reader has the channel to close; each worker has its held item to
complete and its return to make. -/
def Sys.todo (s : Sys) : Nat :=
  2 * s.pending.length + (if s.closed then 0 else 1) + (s.workers.map Worker.todo).sum

/-- What holds of every state the goroutines reach: the channel is closed only
after `s.Scan()` has returned false, and a worker returns only after the channel
was closed and its last item completed. -/
def Sys.Consistent (s : Sys) : Prop :=
  (s.closed = true → Scan s.pending = none) ∧
  ∀ w ∈ s.workers, w.done = true → s.closed = true ∧ w.current = none

/-! ## Facts about the string functions -/

/-- With enough iterations the loop of `trimRightByte` removes the whole run of
trailing bytes equal to `c`. -/
theorem trimRightByteLoop_eq (c : Nat) :
    ∀ (fuel : Nat) (s : GoString), s.length ≤ fuel →
      trimRightByteLoop fuel s c = s.rdropWhile (fun b => b == c) := by
  intro fuel
  induction fuel with
  | zero =>
    intro s hs
    have : s = [] := List.length_eq_zero.mp (Nat.le_zero.mp hs)
    subst this
    simp [trimRightByteLoop]
  | succ n ih =>
    intro s hs
    rcases List.eq_nil_or_concat s with h | ⟨l, a, h⟩
    · subst h
      simp [trimRightByteLoop]
    · rw [List.concat_eq_append] at h
      subst h
      have hl : l.length ≤ n := by
        simp only [List.length_append, List.length_singleton] at hs
        omega
      by_cases hac : a = c
      · subst hac
        rw [List.rdropWhile_concat_pos (fun b => b == a) l a (by simp)]
        simp [trimRightByteLoop, ih l hl]
      · rw [List.rdropWhile_concat_neg (fun b => b == c) l a (by simpa using hac)]
        simp [trimRightByteLoop, hac]

/-- The call `strings.TrimRight(a, ".")` removes the trailing dots of `a`, all of
them, and nothing else. -/
theorem TrimRight_dot (a : GoString) :
    TrimRight a (ascii ".") = a.rdropWhile (fun b => b == DOT) := by
  have hcut : ascii "." = [DOT] := by decide
  rw [hcut]
  by_cases ha : a = []
  · subst ha
    simp [TrimRight]
  · have hlen : ¬ (a.length = 0) := fun h => ha (List.length_eq_zero.mp h)
    have hd : DOT < RuneSelf := by decide
    simp only [TrimRight, hlen, List.length_singleton, List.headD_cons, hd, one_ne_zero,
      or_self, and_self, if_true, if_false]
    exact trimRightByteLoop_eq DOT a.length a (Nat.le_refl _)

/-- A list from which the trailing dots were removed does not end in a dot. -/
theorem rdropWhile_dot_getLast (a : GoString) :
    (a.rdropWhile (fun b => b == DOT)).getLast? ≠ some DOT := by
  intro h
  have hne : a.rdropWhile (fun b => b == DOT) ≠ [] := by
    intro h0
    rw [h0] at h
    simp at h
  have hnot := List.rdropWhile_last_not (fun b => b == DOT) a hne
  rw [List.getLast?_eq_getLast _ hne] at h
  have : (a.rdropWhile (fun b => b == DOT)).getLast hne = DOT := Option.some.inj h
  rw [this] at hnot
  simp at hnot

/-- The output of `Println` for one operand: the operand, then the newline. -/
theorem Println_one (x : GoString) : Println [x] = x ++ [NL] := by
  simp [Println, doPrintlnArgs]

/-- The output of `Println` for three operands: a space separates each two. -/
theorem Println_three (x y z : GoString) :
    Println [x, y, z] = x ++ [SP] ++ y ++ [SP] ++ z ++ [NL] := by
  simp [Println, doPrintlnArgs]

/-- The write of `doWork` for one name, domain-only mode. -/
theorem doWorkEmit_domain (opts : Opts) (ip a : GoString) (h : opts.Domain = true) :
    doWorkEmit opts ip a = a.rdropWhile (fun b => b == DOT) ++ [NL] := by
  simp [doWorkEmit, h, Println_one, TrimRight_dot]

/-- The write of `doWork` for one name, in either mode: the record, then the
line terminator. -/
theorem doWorkEmit_eq (opts : Opts) (ip a : GoString) :
    doWorkEmit opts ip a =
      (if opts.Domain = true then a.rdropWhile (fun b => b == DOT)
        else ip ++ [SP, TAB, SP] ++ a) ++ [NL] := by
  cases hd : opts.Domain with
  | true => simp [doWorkEmit_domain opts ip a hd]
  | false =>
    have htab : ascii "\t" = [TAB] := by decide
    simp [doWorkEmit, hd, Println_three, htab]

/-- The output of `doWork` is the concatenation, over the items received, of the
writes for the names of each item whose lookup succeeded. -/
theorem doWork_eq_flatMap (opts : Opts) (LookupAddr : GoString → Except GoString (List GoString))
    (work : List GoString) :
    doWork opts LookupAddr work =
      work.flatMap (fun ip =>
        match LookupAddr ip with
        | .error _ => []
        | .ok addr => addr.map (doWorkEmit opts ip)) := by
  induction work with
  | nil => simp [doWork]
  | cons ip rest ih =>
    rw [doWork, List.flatMap_cons]
    cases hL : LookupAddr ip with
    | error e => simpa using ih
    | ok addr => simp [ih]

/-! ## Facts about the resolver pool -/

/-- The loop over the candidates appends the passing candidates to
`resolverIPs`, in order, and calls `testResolver` once per candidate, in order. -/
theorem probeLoop_eq (testResolver : GoString → Bool) (cs : List GoString) (st : PoolState) :
    probeLoop testResolver cs st =
      { resolverIPs := st.resolverIPs ++ cs.filter testResolver, probed := st.probed ++ cs } := by
  induction cs generalizing st with
  | nil => simp [probeLoop]
  | cons c rest ih =>
    by_cases hc : testResolver c = true
    · simp [probeLoop, hc, ih]
    · simp [probeLoop, hc, ih]

/-- The result of `loadResolversFromFile` on a readable file, from an empty pool. -/
theorem loadResolversFromFile_ok (testResolver : GoString → Bool) (cs : List GoString) :
    loadResolversFromFile (.ok cs) testResolver [] =
      if cs.filter testResolver = [] then
        .error (.message (ascii "No working resolvers found."))
      else
        .ok { resolverIPs := cs.filter testResolver, probed := cs } := by
  simp [loadResolversFromFile, probeLoop_eq]

/-! ## The claims about the output of `doWork` -/

/-- C1 (as amended): in default mode, for every input line `ip` whose lookup
succeeds with the names `addr`, the writes of `doWork` are, for each name `a` in
order, exactly `ip`, a space, one tab, a space, `a`, and the line terminator:
`Println` puts a space between each two of its three operands. -/
theorem doWork_default_record (opts : Opts)
    (LookupAddr : GoString → Except GoString (List GoString)) (ip : GoString)
    (addr : List GoString) (hmode : opts.Domain = false) (hok : LookupAddr ip = .ok addr) :
    doWork opts LookupAddr [ip] = addr.map (fun a => ip ++ [SP, TAB, SP] ++ a ++ [NL]) := by
  have htab : ascii "\t" = [TAB] := by decide
  simp [doWork, hok, doWorkEmit, hmode, Println_three, htab]

/-- Witness of C1 (as amended): the input line 8.8.8.8 resolving to dns.google. -/
theorem doWork_default_record_witness :
    doWork ⟨8, [], [], ascii "udp", 53, false⟩ (fun _ => .ok [ascii "dns.google."])
        [ascii "8.8.8.8"]
      = [ascii "dns.google."].map
          (fun a => ascii "8.8.8.8" ++ [SP, TAB, SP] ++ a ++ [NL]) :=
  doWork_default_record ⟨8, [], [], ascii "udp", 53, false⟩
    (fun _ => .ok [ascii "dns.google."]) (ascii "8.8.8.8") [ascii "dns.google."] rfl rfl

/-- C1 fails as stated: for the input line 8.8.8.8 resolving to dns.google., in
default mode, `doWork` writes the line with a space on each side of the tab, which
is not the line made of the input, one tab and the name. -/
theorem doWork_default_record_not_tab_only :
    doWork ⟨8, [], [], ascii "udp", 53, false⟩ (fun _ => .ok [ascii "dns.google."])
        [ascii "8.8.8.8"] = [ascii "8.8.8.8 \t dns.google.\n"] ∧
    doWork ⟨8, [], [], ascii "udp", 53, false⟩ (fun _ => .ok [ascii "dns.google."])
        [ascii "8.8.8.8"] ≠ [ascii "8.8.8.8" ++ [TAB] ++ ascii "dns.google." ++ [NL]] := by
  decide

/-- C2: in domain-only mode every write of `doWork`, for every sequence of items
and every lookup outcome, is a record followed by the line terminator, and the
record does not end with the character `.`. -/
theorem doWork_domain_no_trailing_dot (opts : Opts)
    (LookupAddr : GoString → Except GoString (List GoString)) (work : List GoString)
    (hmode : opts.Domain = true) :
    ∀ w ∈ doWork opts LookupAddr work, ∃ record, w = record ++ [NL] ∧ record.getLast? ≠ some DOT := by
  intro w hw
  rw [doWork_eq_flatMap, List.mem_flatMap] at hw
  obtain ⟨ip, _, hip⟩ := hw
  cases hL : LookupAddr ip with
  | error e => simp [hL] at hip
  | ok addr =>
    simp only [hL, List.mem_map] at hip
    obtain ⟨a, _, ha⟩ := hip
    refine ⟨a.rdropWhile (fun b => b == DOT), ?_, rdropWhile_dot_getLast a⟩
    rw [← ha, doWorkEmit_domain opts ip a hmode]

/-- Witness of C2: a name ending in two dots, domain-only mode. -/
theorem doWork_domain_no_trailing_dot_witness :
    ascii "dns.google\n" ∈ doWork ⟨8, [], [], ascii "udp", 53, true⟩
        (fun _ => .ok [ascii "dns.google.."]) [ascii "8.8.8.8"] ∧
    ∃ record, ascii "dns.google\n" = record ++ [NL] ∧ record.getLast? ≠ some DOT :=
  ⟨by decide,
    doWork_domain_no_trailing_dot ⟨8, [], [], ascii "udp", 53, true⟩
      (fun _ => .ok [ascii "dns.google.."]) [ascii "8.8.8.8"] rfl (ascii "dns.google\n")
      (by decide)⟩

/-- C3 (as amended): in domain-only mode the write of `doWork` for the name `a` is
`a` with all its trailing dots removed, then the line terminator.  When `a` is
`s` followed by a dot the record is `s` with its own trailing dots removed, which
is exactly `s` when `s` does not end in a dot; when `a` does not end in a dot the
record is exactly `a`; and the write is the same for every input line. -/
theorem doWorkEmit_domain_record (opts : Opts) (ip a : GoString) (hmode : opts.Domain = true) :
    doWorkEmit opts ip a = a.rdropWhile (fun b => b == DOT) ++ [NL] ∧
    (∀ s, a = s ++ [DOT] → doWorkEmit opts ip a = s.rdropWhile (fun b => b == DOT) ++ [NL]) ∧
    (∀ s, a = s ++ [DOT] → s.getLast? ≠ some DOT → doWorkEmit opts ip a = s ++ [NL]) ∧
    (a.getLast? ≠ some DOT → doWorkEmit opts ip a = a ++ [NL]) ∧
    (∀ ip2, doWorkEmit opts ip2 a = doWorkEmit opts ip a) := by
  have hself : ∀ t : GoString, t.getLast? ≠ some DOT → t.rdropWhile (fun b => b == DOT) = t := by
    intro t ht
    rw [List.rdropWhile_eq_self_iff]
    intro hne hp
    apply ht
    rw [List.getLast?_eq_getLast _ hne]
    simpa using hp
  have hdrop : ∀ s : GoString,
      (s ++ [DOT]).rdropWhile (fun b => b == DOT) = s.rdropWhile (fun b => b == DOT) :=
    fun s => List.rdropWhile_concat_pos (fun b => b == DOT) s DOT (by simp)
  refine ⟨doWorkEmit_domain opts ip a hmode, ?_, ?_, ?_, ?_⟩
  · intro s hs
    rw [doWorkEmit_domain opts ip a hmode, hs, hdrop]
  · intro s hs hlast
    rw [doWorkEmit_domain opts ip a hmode, hs, hdrop, hself s hlast]
  · intro hlast
    rw [doWorkEmit_domain opts ip a hmode, hself a hlast]
  · intro ip2
    rw [doWorkEmit_domain opts ip a hmode, doWorkEmit_domain opts ip2 a hmode]

/-- Witness of C3 (as amended): the name dns.google. in domain-only mode. -/
theorem doWorkEmit_domain_record_witness :
    doWorkEmit ⟨8, [], [], ascii "udp", 53, true⟩ (ascii "8.8.8.8") (ascii "dns.google.")
      = (ascii "dns.google.").rdropWhile (fun b => b == DOT) ++ [NL] :=
  (doWorkEmit_domain_record ⟨8, [], [], ascii "udp", 53, true⟩ (ascii "8.8.8.8")
    (ascii "dns.google.") rfl).1

/-- C3 fails as stated: the name dns.google.. is dns.google. followed by a dot,
and in domain-only mode `doWork` writes dns.google, not dns.google. -/
theorem doWork_domain_strips_every_dot :
    ascii "dns.google.." = ascii "dns.google." ++ ascii "." ∧
    doWork ⟨8, [], [], ascii "udp", 53, true⟩ (fun _ => .ok [ascii "dns.google.."])
        [ascii "8.8.8.8"] = [ascii "dns.google" ++ [NL]] ∧
    doWork ⟨8, [], [], ascii "udp", 53, true⟩ (fun _ => .ok [ascii "dns.google.."])
        [ascii "8.8.8.8"] ≠ [ascii "dns.google." ++ [NL]] := by
  decide

/-- C9: for every sequence of items received by a worker and every lookup
outcome, the writes of `doWork` are the concatenation over the items, in order,
of nothing for an item whose lookup fails and, for an item whose lookup succeeds,
of one line per returned name in the order returned: the record of the name (the
name without its trailing dots in domain-only mode, else the item, a space, a
tab, a space and the name) followed by the line terminator, so every write has
at least one byte.  Hence they equal the writes for the sequence with the failing
items removed, a failing item in front changes nothing, and a successful item in
front adds as many writes as it has names. -/
theorem doWork_skips_failed_lookups (opts : Opts)
    (LookupAddr : GoString → Except GoString (List GoString)) (work : List GoString) :
    doWork opts LookupAddr work =
      work.flatMap (fun ip =>
        match LookupAddr ip with
        | .error _ => []
        | .ok addr => addr.map (fun a =>
            (if opts.Domain = true then a.rdropWhile (fun b => b == DOT)
              else ip ++ [SP, TAB, SP] ++ a) ++ [NL])) ∧
    (∀ w ∈ doWork opts LookupAddr work, w ≠ [] ∧ w.getLast? = some NL) ∧
    doWork opts LookupAddr work =
      doWork opts LookupAddr (work.filter (fun ip => (LookupAddr ip).toBool)) ∧
    (∀ ip err, LookupAddr ip = .error err →
      doWork opts LookupAddr (ip :: work) = doWork opts LookupAddr work) ∧
    (∀ ip addr, LookupAddr ip = .ok addr →
      doWork opts LookupAddr (ip :: work)
        = addr.map (doWorkEmit opts ip) ++ doWork opts LookupAddr work ∧
      (∀ a, doWorkEmit opts ip a =
        (if opts.Domain = true then a.rdropWhile (fun b => b == DOT)
          else ip ++ [SP, TAB, SP] ++ a) ++ [NL]) ∧
      (doWork opts LookupAddr (ip :: work)).length
        = addr.length + (doWork opts LookupAddr work).length) := by
  have hflat : doWork opts LookupAddr work =
      work.flatMap (fun ip =>
        match LookupAddr ip with
        | .error _ => []
        | .ok addr => addr.map (fun a =>
            (if opts.Domain = true then a.rdropWhile (fun b => b == DOT)
              else ip ++ [SP, TAB, SP] ++ a) ++ [NL])) := by
    rw [doWork_eq_flatMap]
    congr 1
    funext ip
    cases LookupAddr ip with
    | error e => rfl
    | ok addr =>
      simp only
      congr 1
      funext a
      exact doWorkEmit_eq opts ip a
  refine ⟨hflat, ?_, ?_, ?_, ?_⟩
  · intro w hw
    rw [hflat, List.mem_flatMap] at hw
    obtain ⟨ip, _, hip⟩ := hw
    cases hL : LookupAddr ip with
    | error e => simp [hL] at hip
    | ok addr =>
      simp only [hL, List.mem_map] at hip
      obtain ⟨a, _, ha⟩ := hip
      rw [← ha]
      simp
  · clear hflat
    induction work with
    | nil => simp [doWork]
    | cons ip rest ih =>
      cases hL : LookupAddr ip with
      | error e =>
        have hf : (ip :: rest).filter (fun ip => (LookupAddr ip).toBool)
            = rest.filter (fun ip => (LookupAddr ip).toBool) := by
          simp [List.filter_cons, hL, Except.toBool]
        rw [hf]
        simpa [doWork, hL] using ih
      | ok addr =>
        have hf : (ip :: rest).filter (fun ip => (LookupAddr ip).toBool)
            = ip :: rest.filter (fun ip => (LookupAddr ip).toBool) := by
          simp [List.filter_cons, hL, Except.toBool]
        rw [hf]
        simp only [doWork, hL]
        rw [← ih]
  · intro ip err h
    simp [doWork, h]
  · intro ip addr h
    refine ⟨by simp [doWork, h], fun a => doWorkEmit_eq opts ip a, by simp [doWork, h]⟩

/-- Witness of C9: a worker that receives 0.0.0.0, whose lookup fails, and then
8.8.8.8, whose lookup returns two names, in default mode: two lines, both for
8.8.8.8, in the order of the names. -/
theorem doWork_skips_failed_lookups_witness :
    doWork ⟨8, [], [], ascii "udp", 53, false⟩
        (fun ip => if ip = ascii "8.8.8.8" then .ok [ascii "dns.google.", ascii "google-public-dns-a.google.com."]
          else .error (ascii "no such host"))
        [ascii "0.0.0.0", ascii "8.8.8.8"]
      = [ascii "8.8.8.8 \t dns.google.\n", ascii "8.8.8.8 \t google-public-dns-a.google.com.\n"] :=
  (doWork_skips_failed_lookups ⟨8, [], [], ascii "udp", 53, false⟩
    (fun ip => if ip = ascii "8.8.8.8" then .ok [ascii "dns.google.", ascii "google-public-dns-a.google.com."]
      else .error (ascii "no such host"))
    [ascii "0.0.0.0", ascii "8.8.8.8"]).1.trans (by decide)

/-! ## The claims about the resolver pool -/

/-- C4: for every candidate list `cs` and every probe outcome, from an empty
pool: when `loadResolversFromFile` returns, the pool is `cs` filtered by the
probe (the passing candidates, in the order supplied, duplicates kept) and the
probe was called on each candidate once, in that order; and it does return
whenever a candidate passes. -/
theorem loadResolversFromFile_filter (testResolver : GoString → Bool) (cs : List GoString) :
    (∀ st, loadResolversFromFile (.ok cs) testResolver [] = .ok st →
      st.resolverIPs = cs.filter testResolver ∧ st.probed = cs) ∧
    (cs.filter testResolver ≠ [] →
      loadResolversFromFile (.ok cs) testResolver []
        = .ok { resolverIPs := cs.filter testResolver, probed := cs }) := by
  rw [loadResolversFromFile_ok]
  constructor
  · intro st h
    by_cases hf : cs.filter testResolver = []
    · simp [hf] at h
    · simp only [hf, if_false, Except.ok.injEq] at h
      subst h
      exact ⟨rfl, rfl⟩
  · intro hf
    simp [hf]

/-- C5: for every candidate list, the empty one included, from an empty pool:
`loadResolversFromFile` ends in the panic "No working resolvers found." exactly
when every candidate fails the probe, and then no pool is returned; and for any
outcome of opening the file it ends in that panic only when the file was read
and no candidate passes. -/
theorem loadResolversFromFile_panic_iff (testResolver : GoString → Bool) (cs : List GoString) :
    ((∀ c ∈ cs, testResolver c = false) ↔
      loadResolversFromFile (.ok cs) testResolver []
        = .error (.message (ascii "No working resolvers found."))) ∧
    ((∀ c ∈ cs, testResolver c = false) →
      ∀ st, loadResolversFromFile (.ok cs) testResolver [] ≠ .ok st) ∧
    (∀ file, loadResolversFromFile file testResolver []
        = .error (.message (ascii "No working resolvers found.")) →
      ∃ cs2, file = .ok cs2 ∧ ∀ c ∈ cs2, testResolver c = false) := by
  have key : ∀ l : List GoString, (∀ c ∈ l, testResolver c = false) ↔
      loadResolversFromFile (.ok l) testResolver []
        = .error (.message (ascii "No working resolvers found.")) := by
    intro l
    rw [loadResolversFromFile_ok]
    by_cases hf : l.filter testResolver = []
    · simp only [hf, if_true, iff_true]
      intro c hc
      have := List.filter_eq_nil_iff.mp hf c hc
      simpa using this
    · simp only [hf, if_false]
      constructor
      · intro hall
        exact absurd (List.filter_eq_nil_iff.mpr (fun c hc => by simp [hall c hc])) hf
      · intro h
        cases h
  refine ⟨key cs, ?_, ?_⟩
  · intro hall st hst
    rw [(key cs).mp hall] at hst
    cases hst
  · intro file h
    cases file with
    | error err => simp [loadResolversFromFile] at h
    | ok l => exact ⟨l, rfl, (key l).mpr h⟩

/-- C6: for every candidate list with a candidate that passes the probe (such a
list is not empty), from an empty pool, `loadResolversFromFile` returns a non-empty pool all of whose members
are candidates that pass; and for every reordering of the candidates it returns
too, with a pool that is a reordering of the first one. -/
theorem loadResolversFromFile_perm (testResolver : GoString → Bool) (cs : List GoString)
    (hpass : ∃ c ∈ cs, testResolver c = true) :
    ∃ st, loadResolversFromFile (.ok cs) testResolver [] = .ok st ∧
      st.resolverIPs ≠ [] ∧
      (∀ r ∈ st.resolverIPs, r ∈ cs ∧ testResolver r = true) ∧
      ∀ cs2, cs2.Perm cs →
        ∃ st2, loadResolversFromFile (.ok cs2) testResolver [] = .ok st2 ∧
          st2.resolverIPs.Perm st.resolverIPs := by
  have hf : cs.filter testResolver ≠ [] := by
    obtain ⟨c, hc, hp⟩ := hpass
    intro h0
    have := List.filter_eq_nil_iff.mp h0 c hc
    exact this hp
  refine ⟨{ resolverIPs := cs.filter testResolver, probed := cs }, ?_, hf, ?_, ?_⟩
  · rw [loadResolversFromFile_ok]
    simp [hf]
  · intro r hr
    have := List.mem_filter.mp hr
    exact ⟨this.1, this.2⟩
  · intro cs2 hperm
    have hp2 : (cs2.filter testResolver).Perm (cs.filter testResolver) := hperm.filter _
    have hf2 : cs2.filter testResolver ≠ [] := by
      intro h0
      rw [h0] at hp2
      exact hf (List.Perm.eq_nil hp2.symm)
    refine ⟨{ resolverIPs := cs2.filter testResolver, probed := cs2 }, ?_, hp2⟩
    rw [loadResolversFromFile_ok]
    simp [hf2]

/-- Witness of C6: three candidates of which one passes the probe. -/
theorem loadResolversFromFile_perm_witness :
    ∃ st, loadResolversFromFile (.ok [ascii "10.0.0.1", ascii "1.1.1.1", ascii "10.0.0.2"])
        (fun r => decide (r = ascii "1.1.1.1")) [] = .ok st ∧
      st.resolverIPs ≠ [] ∧
      (∀ r ∈ st.resolverIPs,
        r ∈ [ascii "10.0.0.1", ascii "1.1.1.1", ascii "10.0.0.2"] ∧
          (fun r => decide (r = ascii "1.1.1.1")) r = true) ∧
      ∀ cs2, cs2.Perm [ascii "10.0.0.1", ascii "1.1.1.1", ascii "10.0.0.2"] →
        ∃ st2, loadResolversFromFile (.ok cs2) (fun r => decide (r = ascii "1.1.1.1")) []
            = .ok st2 ∧
          st2.resolverIPs.Perm st.resolverIPs :=
  loadResolversFromFile_perm (fun r => decide (r = ascii "1.1.1.1"))
    [ascii "10.0.0.1", ascii "1.1.1.1", ascii "10.0.0.2"]
    ⟨ascii "1.1.1.1", by decide, by decide⟩

/-- C7: with an empty pool `getRandomResolver` returns `opts.ResolverIP` itself,
for every configured address, every random source and every state of it, and it
leaves the random source as it was (no number is drawn); so any number of
successive calls all return `opts.ResolverIP`. -/
theorem getRandomResolver_empty {σ : Type} (Intn : σ → Nat → Nat × σ) (opts : Opts) (rnd : σ) :
    getRandomResolver Intn opts [] rnd = (some opts.ResolverIP, rnd) ∧
    ∀ n, getRandomResolverCalls Intn opts [] n rnd = List.replicate n (some opts.ResolverIP) := by
  have h1 : ∀ r : σ, getRandomResolver Intn opts [] r = (some opts.ResolverIP, r) := by
    intro r
    simp [getRandomResolver]
  refine ⟨h1 rnd, ?_⟩
  intro n
  induction n with
  | zero => rfl
  | succ n ih =>
    rw [getRandomResolverCalls, h1 rnd, List.replicate_succ]
    exact congrArg _ ih

/-- C8: with a pool of `k > 0` members, whenever the number drawn by `rand.Intn(k)`
is below `k`, the index of `getRandomResolver` is in range and the result is a
member of the pool (so it is the configured single address only if that address
is in the pool); and for each member of the pool there is a number below `k`
whose draw makes it the result. -/
theorem getRandomResolver_member {σ : Type} (Intn : σ → Nat → Nat × σ) (opts : Opts)
    (resolverIPs : List GoString) (rnd : σ) (hne : resolverIPs ≠ [])
    (hdraw : (Intn rnd resolverIPs.length).1 < resolverIPs.length) :
    (∃ r, (getRandomResolver Intn opts resolverIPs rnd).1 = some r ∧ r ∈ resolverIPs ∧
      (r = opts.ResolverIP → opts.ResolverIP ∈ resolverIPs)) ∧
    (getRandomResolver Intn opts resolverIPs rnd).2 = (Intn rnd resolverIPs.length).2 ∧
    ∀ m ∈ resolverIPs, ∃ i, i < resolverIPs.length ∧
      ∀ (Intn2 : σ → Nat → Nat × σ) (rnd2 : σ), (Intn2 rnd2 resolverIPs.length).1 = i →
        (getRandomResolver Intn2 opts resolverIPs rnd2).1 = some m := by
  have hlen : ¬ (resolverIPs.length = 0) := fun h => hne (List.length_eq_zero.mp h)
  refine ⟨?_, ?_, ?_⟩
  · refine ⟨resolverIPs.get ⟨(Intn rnd resolverIPs.length).1, hdraw⟩, ?_, List.get_mem _ _ _, ?_⟩
    · simp [getRandomResolver, hlen, List.getElem?_eq_getElem hdraw]
    · intro h
      rw [← h]
      exact List.get_mem _ _ _
  · simp [getRandomResolver, hlen]
  · intro m hm
    obtain ⟨i, hi, hget⟩ := List.getElem_of_mem hm
    refine ⟨i, hi, ?_⟩
    intro Intn2 rnd2 h2
    simp [getRandomResolver, hlen, h2, List.getElem?_eq_getElem hi, hget]

/-- Witness of C8: a pool of two addresses and a source that counts upwards. -/
theorem getRandomResolver_member_witness :
    (∃ r, (getRandomResolver (fun (s : Nat) n => (s % n, s + 1)) ⟨8, ascii "8.8.8.8", [], ascii "udp", 53, false⟩
        [ascii "1.1.1.1", ascii "9.9.9.9"] 3).1 = some r ∧
      r ∈ [ascii "1.1.1.1", ascii "9.9.9.9"] ∧
      (r = ascii "8.8.8.8" → ascii "8.8.8.8" ∈ [ascii "1.1.1.1", ascii "9.9.9.9"])) ∧
    (getRandomResolver (fun (s : Nat) n => (s % n, s + 1)) ⟨8, ascii "8.8.8.8", [], ascii "udp", 53, false⟩
        [ascii "1.1.1.1", ascii "9.9.9.9"] 3).2 = 4 ∧
    ∀ m ∈ [ascii "1.1.1.1", ascii "9.9.9.9"], ∃ i, i < 2 ∧
      ∀ (Intn2 : Nat → Nat → Nat × Nat) (rnd2 : Nat), (Intn2 rnd2 2).1 = i →
        (getRandomResolver Intn2 ⟨8, ascii "8.8.8.8", [], ascii "udp", 53, false⟩
          [ascii "1.1.1.1", ascii "9.9.9.9"] rnd2).1 = some m :=
  getRandomResolver_member (fun (s : Nat) n => (s % n, s + 1))
    ⟨8, ascii "8.8.8.8", [], ascii "udp", 53, false⟩ [ascii "1.1.1.1", ascii "9.9.9.9"] 3
    (by decide) (by decide)

/-! ## Facts about the scanner -/

/-- The search finds the first `c` after a stretch without `c`. -/
theorem IndexByteFrom_append (c : Nat) (r : GoString) :
    ∀ (l : GoString) (i : Nat), c ∉ l → IndexByteFrom i (l ++ c :: r) c = some (i + l.length) := by
  intro l
  induction l with
  | nil => intro i _; simp [IndexByteFrom]
  | cons b l ih =>
    intro i h
    have hb : ¬ b = c := fun hbc => h (by simp [hbc])
    have hl : c ∉ l := fun hm => h (List.mem_cons_of_mem _ hm)
    rw [List.cons_append, IndexByteFrom, if_neg hb, ih (i + 1) hl, List.length_cons]
    congr 1
    omega

/-- The search finds nothing in a stretch without `c`. -/
theorem IndexByteFrom_none (c : Nat) :
    ∀ (l : GoString) (i : Nat), c ∉ l → IndexByteFrom i l c = none := by
  intro l
  induction l with
  | nil => intro i _; rfl
  | cons b l ih =>
    intro i h
    have hb : ¬ b = c := fun hbc => h (by simp [hbc])
    have hl : c ∉ l := fun hm => h (List.mem_cons_of_mem _ hm)
    simp only [IndexByteFrom, if_neg hb, ih (i + 1) hl]

/-- The index found by the search is the index of a byte of the data. -/
theorem IndexByteFrom_lt (c : Nat) :
    ∀ (l : GoString) (i j : Nat), IndexByteFrom i l c = some j → i ≤ j ∧ j < i + l.length := by
  intro l
  induction l with
  | nil => intro i j h; simp [IndexByteFrom] at h
  | cons b l ih =>
    intro i j h
    simp only [IndexByteFrom] at h
    split at h
    · simp only [Option.some.injEq] at h
      simp only [List.length_cons]
      omega
    · have := ih (i + 1) j h
      simp only [List.length_cons]
      omega

/-- A successful `Scan` consumes at least one byte. -/
theorem Scan_some_lt (data token rest : GoString) (h : Scan data = some (token, rest)) :
    rest.length < data.length := by
  simp only [Scan, ScanLines] at h
  split at h
  · rename_i advance tok heq
    simp only [Option.some.injEq, Prod.mk.injEq] at h
    obtain ⟨_, hrest⟩ := h
    subst hrest
    split at heq
    · simp at heq
    · rename_i hne
      split at heq
      · rename_i i hi
        simp only [Prod.mk.injEq] at heq
        have hlt := (IndexByteFrom_lt NL _ 0 i hi).2
        have hle : (List.take MaxScanTokenSize data).length ≤ data.length := by
          simp [List.length_take]
        simp only [List.length_drop]
        omega
      · split at heq
        · rename_i hEOF
          simp only [Prod.mk.injEq] at heq
          have hshort : data.length < MaxScanTokenSize := by simpa using hEOF
          have hlen : (List.take MaxScanTokenSize data).length = data.length := by
            simp only [List.length_take]
            omega
          have hpos : 0 < data.length := by
            by_contra h0
            apply hne
            refine ⟨hEOF, ?_⟩
            omega
          simp only [List.length_drop]
          omega
        · simp at heq
  · cases h

/-- `Scan` returns false on the empty input. -/
theorem Scan_nil : Scan [] = none := by decide

/-- The tokens do not depend on the number of calls allowed, once it is at least
the number of bytes. -/
theorem scanAll_fuel :
    ∀ (n m : Nat) (data : GoString), data.length ≤ n → data.length ≤ m →
      scanAll n data = scanAll m data := by
  intro n
  induction n with
  | zero =>
    intro m data hn _
    have : data = [] := List.length_eq_zero.mp (Nat.le_zero.mp hn)
    subst this
    cases m with
    | zero => rfl
    | succ m => simp [scanAll, Scan_nil]
  | succ n ih =>
    intro m data hn hm
    cases m with
    | zero =>
      have : data = [] := List.length_eq_zero.mp (Nat.le_zero.mp hm)
      subst this
      simp [scanAll, Scan_nil]
    | succ m =>
      simp only [scanAll]
      cases hs : Scan data with
      | none => rfl
      | some p =>
        obtain ⟨token, rest⟩ := p
        have := Scan_some_lt data token rest hs
        simp only
        rw [ih m rest (by omega) (by omega)]

/-- After a successful `Scan` the lines of the input are the token and the lines
of what remains. -/
theorem scanTokens_some (data token rest : GoString) (h : Scan data = some (token, rest)) :
    scanTokens data = token :: scanTokens rest := by
  have hlt := Scan_some_lt data token rest h
  unfold scanTokens
  cases hd : data.length with
  | zero => omega
  | succ k =>
    simp only [scanAll, h]
    rw [scanAll_fuel k rest.length rest (by omega) (Nat.le_refl _)]

/-- After a failed `Scan` the loop goes through no line. -/
theorem scanTokens_none (data : GoString) (h : Scan data = none) : scanTokens data = [] := by
  unfold scanTokens
  cases data.length with
  | zero => rfl
  | succ k => simp only [scanAll, h]

/-- On a line without a newline byte that fits the buffer with its newline,
`Scan` returns the line without its trailing carriage return and leaves the rest. -/
theorem Scan_line (l r : GoString) (hnl : NL ∉ l) (hlen : l.length < MaxScanTokenSize) :
    Scan (l ++ NL :: r) = some (dropCR l, r) := by
  obtain ⟨k, hk⟩ : ∃ k, MaxScanTokenSize - l.length = k + 1 :=
    ⟨MaxScanTokenSize - l.length - 1, by omega⟩
  have htake : List.take MaxScanTokenSize (l ++ NL :: r) = l ++ NL :: List.take k r := by
    rw [List.take_append_eq_append_take, List.take_of_length_le (Nat.le_of_lt hlen), hk,
      List.take_succ_cons]
  have hidx : IndexByte (l ++ NL :: List.take k r) NL = some l.length := by
    unfold IndexByte
    rw [IndexByteFrom_append NL _ l 0 hnl]
    simp
  have hne : ¬ (l ++ NL :: List.take k r).length = 0 := by
    simp
  have h1 : List.take l.length (l ++ NL :: List.take k r) = l := by
    simp
  have h2 : List.drop (l.length + 1) (l ++ NL :: r) = r := by
    simp
  simp only [Scan, ScanLines, htake, hidx, hne, and_false, if_false, h1, h2]

/-- On a line without a newline byte that does not fit the buffer, `Scan`
returns false. -/
theorem Scan_long_line (l r : GoString) (hnl : NL ∉ l) (hlen : MaxScanTokenSize ≤ l.length) :
    Scan (l ++ NL :: r) = none := by
  have htake : List.take MaxScanTokenSize (l ++ NL :: r) = List.take MaxScanTokenSize l :=
    List.take_append_of_le_length hlen
  have hidx : IndexByte (List.take MaxScanTokenSize l) NL = none := by
    unfold IndexByte
    exact IndexByteFrom_none NL _ 0 (fun hm => hnl (List.mem_of_mem_take hm))
  have hEOF : decide ((l ++ NL :: r).length < MaxScanTokenSize) = false := by
    simp only [decide_eq_false_iff_not, List.length_append, List.length_cons]
    omega
  simp only [Scan, ScanLines, htake, hidx, hEOF]
  simp

/-- The loop goes through the lines of an input made of lines that fit the
buffer, each without its trailing carriage return. -/
theorem scanTokens_joinLines (lines : List GoString)
    (h : ∀ l ∈ lines, NL ∉ l ∧ l.length < MaxScanTokenSize) :
    scanTokens (joinLines lines) = lines.map dropCR := by
  induction lines with
  | nil => rfl
  | cons l ls ih =>
    have hl := h l (List.mem_cons_self _ _)
    have hj : joinLines (l :: ls) = l ++ NL :: joinLines ls := by
      simp [joinLines]
    rw [hj, scanTokens_some _ _ _ (Scan_line l (joinLines ls) hl.1 hl.2),
      ih (fun x hx => h x (List.mem_cons_of_mem _ hx)), List.map_cons]

/-- A line that does not end in a carriage return is left as it is. -/
theorem dropCR_of_no_CR (l : GoString) (h : l.getLast? ≠ some CR) : dropCR l = l := by
  simp [dropCR, h]

/-! ## Facts about the fan-out -/

/-- Occurrences in a concatenation. -/
theorem occurrences_append (x : GoString) (l1 l2 : List GoString) :
    occurrences x (l1 ++ l2) = occurrences x l1 + occurrences x l2 := by
  simp [occurrences, List.countP_append]

/-- Occurrences in the empty list. -/
theorem occurrences_nil (x : GoString) : occurrences x [] = 0 := rfl

/-- Two lists in which every item occurs equally often are reorderings of each
other. -/
theorem perm_of_occurrences (l1 l2 : List GoString)
    (h : ∀ x, occurrences x l1 = occurrences x l2) : l1.Perm l2 := by
  rw [List.perm_iff_count]
  intro x
  have := h x
  simp only [occurrences] at this
  simp only [List.count]
  convert this using 2


/-- Replacing one worker changes the occurrences of an item in a list collected
from all workers by the difference between the two workers. -/
theorem count_flatMap_set (f : Worker → List GoString) (x : GoString) :
    ∀ (l : List Worker) (i : Nat) (w w2 : Worker) (a b : List GoString), l[i]? = some w →
      f w = a → f w2 = b →
      occurrences x ((l.set i w2).flatMap f) + occurrences x a = occurrences x (l.flatMap f) + occurrences x b := by
  intro l
  induction l with
  | nil => intro i w w2 a b h; simp at h
  | cons c l ih =>
    intro i w w2 a b h ha hb
    subst ha hb
    cases i with
    | zero =>
      simp only [List.getElem?_cons_zero, Option.some.injEq] at h
      subst h
      simp only [List.set_cons_zero, List.flatMap_cons, occurrences_append]
      omega
    | succ i =>
      simp only [List.getElem?_cons_succ] at h
      have := ih i w w2 (f w) (f w2) h rfl rfl
      simp only [List.set_cons_succ, List.flatMap_cons, occurrences_append]
      omega

/-- Replacing one worker changes a sum over all workers by the difference
between the two workers. -/
theorem sum_map_set (h : Worker → Nat) :
    ∀ (l : List Worker) (i : Nat) (w w2 : Worker), l[i]? = some w →
      ((l.set i w2).map h).sum + h w = (l.map h).sum + h w2 := by
  intro l
  induction l with
  | nil => intro i w w2 hw; simp at hw
  | cons a l ih =>
    intro i w w2 hw
    cases i with
    | zero =>
      simp only [List.getElem?_cons_zero, Option.some.injEq] at hw
      subst hw
      simp only [List.set_cons_zero, List.map_cons, List.sum_cons]
      omega
    | succ i =>
      simp only [List.getElem?_cons_succ] at hw
      have := ih i w w2 hw
      simp only [List.set_cons_succ, List.map_cons, List.sum_cons]
      omega

/-- The work left in a worker that holds no item and has not returned, and in
the same worker once it holds one, has completed one, or has returned. -/
theorem Worker.todo_cases (w : Worker) :
    (w.done = false → w.current = none → w.todo = 1) ∧
    (∀ ip, w.done = false → Worker.todo { w with current := some ip } = 2) ∧
    (∀ ip q, w.current = some ip →
      Worker.todo { w with current := none, processed := q } + 1 = w.todo) ∧
    (w.current = none → Worker.todo { w with done := true } = 0) := by
  cases w with
  | mk cur proc dn =>
    refine ⟨?_, ?_, ?_, ?_⟩
    · intro h1 h2
      simp only at h1 h2
      subst h1 h2
      rfl
    · intro ip h1
      simp only at h1
      subst h1
      rfl
    · intro ip q h1
      simp only at h1
      subst h1
      cases dn <;> rfl
    · intro h1
      simp only at h1
      subst h1
      rfl

/-- One event takes at least one unit of the work left, keeps the number of
workers, keeps every item (among the lines still to be scanned, the held items
and the processed items), and keeps the state consistent. -/
theorem step_spec (s t : Sys) (e : Event) (h : s.step e = some t) :
    t.todo + 1 ≤ s.todo ∧
    t.workers.length = s.workers.length ∧
    (∀ x, occurrences x (scanTokens t.pending) + occurrences x t.inFlight
          + occurrences x t.processed
        = occurrences x (scanTokens s.pending) + occurrences x s.inFlight
          + occurrences x s.processed) ∧
    (s.Consistent → t.Consistent) := by
  cases e with
  | handoff i =>
    simp only [Sys.step] at h
    split at h
    · rename_i ip rest w hp hw
      split at h
      · rename_i hg
        simp only [Option.some.injEq] at h
        subst h
        obtain ⟨hcl, hd, hc⟩ := hg
        have hsum := sum_map_set Worker.todo s.workers i w { w with current := some ip } hw
        have hlt := Scan_some_lt s.pending ip rest hp
        refine ⟨?_, by simp, ?_, ?_⟩
        · rw [(Worker.todo_cases w).1 hd hc, (Worker.todo_cases w).2.1 ip hd] at hsum
          simp only [Sys.todo]
          omega
        · intro x
          have h1 := count_flatMap_set (fun w => w.current.toList) x s.workers i w
            { w with current := some ip } [] [ip] hw (by simp [hc]) rfl
          have h2 := count_flatMap_set (fun w => w.processed) x s.workers i w
            { w with current := some ip } w.processed w.processed hw rfl rfl
          have h3 : occurrences x (scanTokens s.pending)
              = occurrences x [ip] + occurrences x (scanTokens rest) := by
            rw [scanTokens_some s.pending ip rest hp, ← occurrences_append]
            rfl
          simp only [Sys.inFlight, Sys.processed, h3]
          simp only [occurrences_nil] at h1
          omega
        · intro hcons
          constructor
          · intro hcl2
            rw [hcl] at hcl2
            cases hcl2
          · intro w2 hw2 hd2
            rcases List.mem_or_eq_of_mem_set hw2 with hm | he
            · exact hcons.2 w2 hm hd2
            · subst he
              simp [hd] at hd2
      · cases h
    · cases h
  | lookup i =>
    simp only [Sys.step] at h
    split at h
    · rename_i w hw
      split at h
      · rename_i ip hc
        simp only [Option.some.injEq] at h
        subst h
        have hsum := sum_map_set Worker.todo s.workers i w
          { w with current := none, processed := w.processed ++ [ip] } hw
        refine ⟨?_, by simp, ?_, ?_⟩
        · have := (Worker.todo_cases w).2.2.1 ip (w.processed ++ [ip]) hc
          simp only [Sys.todo]
          omega
        · intro x
          have h1 := count_flatMap_set (fun w => w.current.toList) x s.workers i w
            { w with current := none, processed := w.processed ++ [ip] } [ip] [] hw
            (by simp [hc]) rfl
          have h2 := count_flatMap_set (fun w => w.processed) x s.workers i w
            { w with current := none, processed := w.processed ++ [ip] } w.processed
            (w.processed ++ [ip]) hw rfl rfl
          simp only [Sys.inFlight, Sys.processed]
          simp only [occurrences_nil, occurrences_append] at h1 h2
          omega
        · intro hcons
          constructor
          · exact hcons.1
          · intro w2 hw2 hd2
            rcases List.mem_or_eq_of_mem_set hw2 with hm | he
            · exact hcons.2 w2 hm hd2
            · subst he
              have hwm : w ∈ s.workers := List.mem_iff_getElem?.mpr ⟨i, hw⟩
              exact ⟨(hcons.2 w hwm hd2).1, rfl⟩
      · cases h
    · cases h
  | close =>
    simp only [Sys.step] at h
    split at h
    · rename_i hp
      split at h
      · rename_i hc
        simp only [Option.some.injEq] at h
        subst h
        refine ⟨?_, rfl, fun x => rfl, ?_⟩
        · simp only [Sys.todo, hc]
          simp
          omega
        · intro hcons
          constructor
          · intro _
            exact hp
          · intro w2 hw2 hd2
            exact ⟨rfl, (hcons.2 w2 hw2 hd2).2⟩
      · cases h
    · cases h
  | exit i =>
    simp only [Sys.step] at h
    split at h
    · rename_i w hw
      split at h
      · rename_i hg
        simp only [Option.some.injEq] at h
        subst h
        obtain ⟨hcl, hd, hc⟩ := hg
        have hsum := sum_map_set Worker.todo s.workers i w { w with done := true } hw
        refine ⟨?_, by simp, ?_, ?_⟩
        · rw [(Worker.todo_cases w).1 hd hc, (Worker.todo_cases w).2.2.2 hc] at hsum
          simp only [Sys.todo]
          omega
        · intro x
          have h1 := count_flatMap_set (fun w => w.current.toList) x s.workers i w
            { w with done := true } w.current.toList w.current.toList hw rfl rfl
          have h2 := count_flatMap_set (fun w => w.processed) x s.workers i w
            { w with done := true } w.processed w.processed hw rfl rfl
          simp only [Sys.inFlight, Sys.processed]
          omega
        · intro hcons
          constructor
          · exact hcons.1
          · intro w2 hw2 hd2
            rcases List.mem_or_eq_of_mem_set hw2 with hm | he
            · exact hcons.2 w2 hm hd2
            · subst he
              exact ⟨hcl, hc⟩
      · cases h
    · cases h

/-- A run of events from a state: the work left goes down by at least the
number of events, and what one event keeps is kept. -/
theorem run_spec (evs : List Event) :
    ∀ (s t : Sys), s.run evs = some t →
      t.todo + evs.length ≤ s.todo ∧
      t.workers.length = s.workers.length ∧
      (∀ x, occurrences x (scanTokens t.pending) + occurrences x t.inFlight
            + occurrences x t.processed
          = occurrences x (scanTokens s.pending) + occurrences x s.inFlight
            + occurrences x s.processed) ∧
      (s.Consistent → t.Consistent) := by
  induction evs with
  | nil =>
    intro s t h
    simp only [Sys.run, Option.some.injEq] at h
    subst h
    exact ⟨Nat.le_refl _, rfl, fun _ => rfl, id⟩
  | cons e es ih =>
    intro s t h
    simp only [Sys.run] at h
    split at h
    · rename_i u hu
      obtain ⟨a1, a2, a3, a4⟩ := step_spec s u e hu
      obtain ⟨b1, b2, b3, b4⟩ := ih u t h
      refine ⟨?_, by omega, fun x => by rw [b3 x, a3 x], fun hc => b4 (a4 hc)⟩
      simp only [List.length_cons]
      omega
    · cases h

/-- While some worker has not returned, some event is enabled: the goroutines
do not block one another for ever. -/
theorem step_enabled (s : Sys) (h : s.allDone = false) : ∃ e t, s.step e = some t := by
  have hex : ∃ w ∈ s.workers, w.done = false := by
    by_contra hno
    have : s.allDone = true := by
      simp only [Sys.allDone, List.all_eq_true]
      intro w hw
      by_contra hd
      exact hno ⟨w, hw, by simpa using hd⟩
    rw [this] at h
    cases h
  obtain ⟨w, hw, hd⟩ := hex
  obtain ⟨i, hi, hget⟩ := List.getElem_of_mem hw
  have hget2 : s.workers[i]? = some w := by
    rw [List.getElem?_eq_getElem hi, hget]
  cases hc : w.current with
  | some ip =>
    refine ⟨.lookup i, ?_⟩
    simp only [Sys.step, hget2, hc]
    exact ⟨_, rfl⟩
  | none =>
    cases hcl : s.closed with
    | true =>
      refine ⟨.exit i, ?_⟩
      simp only [Sys.step, hget2, hd, hc, hcl, and_self, if_true]
      exact ⟨_, rfl⟩
    | false =>
      cases hp : Scan s.pending with
      | some p =>
        obtain ⟨ip, rest⟩ := p
        refine ⟨.handoff i, ?_⟩
        simp only [Sys.step, hp, hget2, hd, hc, hcl, and_self, if_true]
        exact ⟨_, rfl⟩
      | none =>
        refine ⟨.close, ?_⟩
        simp only [Sys.step, hp, hcl, if_true]
        exact ⟨_, rfl⟩

/-- From every state the goroutines can run on until every worker has returned. -/
theorem run_complete :
    ∀ (n : Nat) (s : Sys), s.todo ≤ n → ∃ evs t, s.run evs = some t ∧ t.allDone = true := by
  intro n
  induction n with
  | zero =>
    intro s hs
    cases hd : s.allDone with
    | true => exact ⟨[], s, rfl, hd⟩
    | false =>
      obtain ⟨e, u, hu⟩ := step_enabled s hd
      have := (step_spec s u e hu).1
      omega
  | succ n ih =>
    intro s hs
    cases hd : s.allDone with
    | true => exact ⟨[], s, rfl, hd⟩
    | false =>
      obtain ⟨e, u, hu⟩ := step_enabled s hd
      have h1 := (step_spec s u e hu).1
      obtain ⟨evs, t, hrun, ht⟩ := ih u (by omega)
      refine ⟨e :: evs, t, ?_, ht⟩
      simp only [Sys.run, hu]
      exact hrun

/-- The state `main` starts the goroutines in: nothing held, nothing processed,
the work left is at most two events per byte, the close and one return per
worker. -/
theorem init_spec (opts : Opts) (data : GoString) :
    (Sys.init opts data).todo = 2 * data.length + 1 + opts.Threads.toNat ∧
    (Sys.init opts data).workers.length = opts.Threads.toNat ∧
    (Sys.init opts data).inFlight = [] ∧
    (Sys.init opts data).processed = [] ∧
    (Sys.init opts data).Consistent := by
  have hall : ∀ w ∈ (Sys.init opts data).workers, w = Worker.start := by
    intro w hw
    exact List.eq_of_mem_replicate hw
  refine ⟨?_, by simp [Sys.init], ?_, ?_, ?_⟩
  · have : ∀ n : Nat, ((List.replicate n Worker.start).map Worker.todo).sum = n := by
      intro n
      induction n with
      | zero => rfl
      | succ n ih =>
        rw [List.replicate_succ, List.map_cons, List.sum_cons, ih]
        have : Worker.start.todo = 1 := rfl
        omega
    simp only [Sys.todo, Sys.init, this]
    simp
  · simp only [Sys.inFlight, List.flatMap_eq_nil_iff]
    intro w hw
    rw [hall w hw]
    rfl
  · simp only [Sys.processed, List.flatMap_eq_nil_iff]
    intro w hw
    rw [hall w hw]
    rfl
  · constructor
    · intro h
      simp [Sys.init] at h
    · intro w hw hd
      rw [hall w hw] at hd
      simp [Worker.start] at hd

/-- In every state the goroutines reach on the input `data` with at least one
worker: the lines still to be scanned, the held items and the processed items
are together the lines the scanner goes through on `data`; and once every worker
has returned the channel is closed, no line is left to scan or held, and the
processed items are those lines. -/
theorem run_tokens (opts : Opts) (data : GoString) (evs : List Event) (s : Sys)
    (hN : 1 ≤ opts.Threads) (hrun : (Sys.init opts data).run evs = some s) :
    (scanTokens s.pending ++ s.inFlight ++ s.processed).Perm (scanTokens data) ∧
    evs.length + s.todo ≤ 2 * data.length + 1 + opts.Threads.toNat ∧
    (s.allDone = true →
      s.closed = true ∧ Scan s.pending = none ∧ s.inFlight = [] ∧
      s.processed.Perm (scanTokens data)) := by
  obtain ⟨i1, i2, i3, i4, i5⟩ := init_spec opts data
  obtain ⟨r1, r2, r3, r4⟩ := run_spec evs (Sys.init opts data) s hrun
  have hcons := r4 i5
  have hcount : ∀ x, occurrences x (scanTokens s.pending) + occurrences x s.inFlight
      + occurrences x s.processed = occurrences x (scanTokens data) := by
    intro x
    rw [r3 x, i3, i4]
    simp [Sys.init, occurrences_nil]
  have hperm : (scanTokens s.pending ++ s.inFlight ++ s.processed).Perm (scanTokens data) := by
    apply perm_of_occurrences
    intro x
    rw [occurrences_append, occurrences_append]
    exact hcount x
  refine ⟨hperm, by omega, ?_⟩
  intro hdone
  have hlen : 1 ≤ s.workers.length := by
    rw [r2, i2]
    omega
  have hall : ∀ w ∈ s.workers, w.done = true := by
    intro w hw
    simp only [Sys.allDone, List.all_eq_true] at hdone
    exact hdone w hw
  have hclosed : s.closed = true := by
    cases hws : s.workers with
    | nil =>
      rw [hws] at hlen
      simp at hlen
    | cons w ws =>
      have hw : w ∈ s.workers := by
        rw [hws]
        exact List.mem_cons_self _ _
      exact (hcons.2 w hw (hall w hw)).1
  have hpend : Scan s.pending = none := hcons.1 hclosed
  have hfl : s.inFlight = [] := by
    simp only [Sys.inFlight, List.flatMap_eq_nil_iff]
    intro w hw
    rw [(hcons.2 w hw (hall w hw)).2]
    rfl
  have hp2 : s.processed.Perm (scanTokens data) := by
    rw [scanTokens_none s.pending hpend, hfl] at hperm
    simpa using hperm
  exact ⟨hclosed, hpend, hfl, hp2⟩


/-- With one worker and an input whose first line does not fit the buffer of the
scanner: the reader closes the channel at once and the worker returns, nothing
being processed. -/
theorem run_long_first_line (l : GoString) (ls : List GoString) (hnl : NL ∉ l)
    (hlen : MaxScanTokenSize ≤ l.length) :
    Scan (joinLines (l :: ls)) = none ∧
    (Sys.init ⟨1, [], [], ascii "udp", 53, false⟩ (joinLines (l :: ls))).run
        [Event.close, Event.exit 0]
      = some { pending := joinLines (l :: ls), closed := true,
               workers := [{ current := none, processed := [], done := true }] } := by
  have hj : joinLines (l :: ls) = l ++ NL :: joinLines ls := by
    simp [joinLines]
  have hs : Scan (joinLines (l :: ls)) = none := by
    rw [hj]
    exact Scan_long_line l (joinLines ls) hnl hlen
  refine ⟨hs, ?_⟩
  have hw : List.replicate (1 : Int).toNat Worker.start = [Worker.start] := rfl
  simp only [Sys.run, Sys.step, Sys.init, hs, hw]
  simp [Worker.start]

/-! ## The claim about the fan-out -/

/-- C10 (as amended): for every worker count of at least 1 and every list of
input lines that hold no newline byte and fit the buffer of the scanner with
their newline (fewer than 64 KiB each), the input being these lines, each
followed by a newline, and read to its end without error: in every state `s` the
goroutines of `main` reach (by any interleaving `evs` of hand-offs, lookups, the
close and returns) the lines still to be scanned, the items held by workers and
the items processed by all workers together are the input lines, each without
its trailing carriage return and each as often as it occurs in the input (no line
is lost and none is handed to two workers); the number of events of a run is
bounded; if some worker has not returned an event is enabled, and the run can
always be completed; and once every worker has returned (`wg.Wait()` returns)
the channel is closed, no line is left to scan or held, and the processed items
are the input lines, each exactly once per occurrence (the lines themselves when
none ends in a carriage return). -/
theorem main_each_line_once (opts : Opts) (lines : List GoString) (evs : List Event) (s : Sys)
    (hN : 1 ≤ opts.Threads)
    (hlines : ∀ l ∈ lines, NL ∉ l ∧ l.length < MaxScanTokenSize)
    (hrun : (Sys.init opts (joinLines lines)).run evs = some s) :
    (scanTokens s.pending ++ s.inFlight ++ s.processed).Perm (lines.map dropCR) ∧
    evs.length + s.todo ≤ 2 * (joinLines lines).length + 1 + opts.Threads.toNat ∧
    (s.allDone = false → ∃ e t, s.step e = some t) ∧
    (∃ evs2 t, s.run evs2 = some t ∧ t.allDone = true) ∧
    (s.allDone = true →
      s.closed = true ∧ scanTokens s.pending = [] ∧ s.inFlight = [] ∧
      s.processed.Perm (lines.map dropCR) ∧ s.processed.length = lines.length ∧
      ((∀ l ∈ lines, l.getLast? ≠ some CR) → s.processed.Perm lines)) := by
  obtain ⟨t1, t2, t3⟩ := run_tokens opts (joinLines lines) evs s hN hrun
  rw [scanTokens_joinLines lines hlines] at t1 t3
  refine ⟨t1, t2, step_enabled s, run_complete s.todo s (Nat.le_refl _), ?_⟩
  intro hdone
  obtain ⟨u1, u2, u3, u4⟩ := t3 hdone
  refine ⟨u1, scanTokens_none s.pending u2, u3, u4, ?_, ?_⟩
  · rw [u4.length_eq, List.length_map]
  · intro hcr
    have hmap : lines.map dropCR = lines := by
      conv_rhs => rw [← List.map_id lines]
      apply List.map_congr_left
      intro l hl
      exact dropCR_of_no_CR l (hcr l hl)
    rw [hmap] at u4
    exact u4

/-- Witness of C10 (as amended): one worker and sixteen distinct input lines, the
worker taking and completing each line in turn, then the close and the return. -/
theorem main_each_line_once_witness :
    ∃ s, (Sys.init ⟨1, [], [], ascii "udp", 53, false⟩
        (joinLines ((List.range 16).map (fun n => [65 + n])))).run
        ((List.replicate 16 [Event.handoff 0, Event.lookup 0]).flatten
          ++ [Event.close, Event.exit 0]) = some s ∧
      s.allDone = true ∧
      s.processed.Perm ((List.range 16).map (fun n => [65 + n])) ∧
      s.processed.length = 16 :=
  ⟨{ pending := [], closed := true,
     workers := [{ current := none, processed := (List.range 16).map (fun n => [65 + n]),
                   done := true }] },
    by decide, by decide,
    ((main_each_line_once ⟨1, [], [], ascii "udp", 53, false⟩
      ((List.range 16).map (fun n => [65 + n]))
      ((List.replicate 16 [Event.handoff 0, Event.lookup 0]).flatten
        ++ [Event.close, Event.exit 0])
      { pending := [], closed := true,
        workers := [{ current := none, processed := (List.range 16).map (fun n => [65 + n]),
                      done := true }] }
      (by decide) (by decide) (by decide)).2.2.2.2 (by decide)).2.2.2.2.2 (by decide),
    by decide⟩

/-- C10 fails as stated: with one worker and the two input lines made of 70000
bytes `A` and of 8.8.8.8, `s.Scan()` returns false on the first line (it does not
fit the buffer), the reader closes the channel, the worker returns, and no line
was looked up; the loop of the reader goes through no line at all on this input. -/
theorem main_long_line_stops_reader :
    scanTokens (joinLines [List.replicate 70000 65, ascii "8.8.8.8"]) = [] ∧
    ∃ s, (Sys.init ⟨1, [], [], ascii "udp", 53, false⟩
        (joinLines [List.replicate 70000 65, ascii "8.8.8.8"])).run
        [Event.close, Event.exit 0] = some s ∧
      s.allDone = true ∧ s.closed = true ∧ s.processed = [] ∧
      ¬ s.processed.Perm [List.replicate 70000 65, ascii "8.8.8.8"] := by
  have hnl : NL ∉ List.replicate 70000 65 := by
    intro h
    have h2 := List.eq_of_mem_replicate h
    revert h2
    decide
  have hlen : MaxScanTokenSize ≤ (List.replicate 70000 65).length := by
    rw [List.length_replicate]
    decide
  obtain ⟨hs, hr⟩ := run_long_first_line (List.replicate 70000 65) [ascii "8.8.8.8"] hnl hlen
  refine ⟨scanTokens_none _ hs, _, hr, rfl, rfl, rfl, ?_⟩
  intro hp
  have h0 : (0 : Nat) = 2 := hp.length_eq
  cases h0

end Hakrevdns
